import Mathlib

/-!
Verification of the numerical core of the simons-obsidian-plugin repository.

The core under scrutiny is the Rust computation layer described in
`vector_plan.md` (graph-to-matrix construction, dimensionality reduction,
vector utilities) together with the TypeScript glue in
`src/visualization` that invokes it.  Pure functions of the source are
embedded shallowly: Rust `usize` is `Nat` (with explicit wrap-around where
the source can underflow), Rust `f64` is `ℚ` for the exact fragments the
claims exercise, `Result<T, PluginError>` is `Except PluginError T`, and a
sparse `CsMat` is its cell function `Nat → Nat → Nat`.
-/

/-- Error enum from `rust/src/error.rs` as extended in `vector_plan.md`
(variants relevant to the vector feature).  Rust field names: `method`,
`reason`; `expected`, `got`, `vector_index`; `required`, `provided`;
`from`, `to`, `max` (the last three renamed since `from` is reserved). -/
inductive PluginError where
  | DimensionalityReductionError (method reason : String)
  | InvalidVectorDimensions (expected got vector_index : Nat)
  | InsufficientData (required provided : Nat)
  | InvalidLinkIndex (fromIdx toIdx maxIdx : Nat)
  | ZeroNormVector
deriving DecidableEq

/-- `NoteLink` from `rust/src/adjacency_matrix.rs` (`vector_plan.md`):
a directed link between note indices. -/
structure NoteLink where
  from_id : Nat
  to_id : Nat
deriving DecidableEq

deriving instance DecidableEq for Except

/-- Wrap-around decrement of a `usize` on the 32-bit wasm target: the
source computes `self.num_notes - 1` for the `max` field of
`InvalidLinkIndex`; in a release build this wraps for `num_notes = 0`. -/
def usizePred (n : Nat) : Nat := (n + (2 ^ 32 - 1)) % 2 ^ 32

/-- Number of links with the given endpoints, the count semantics of the
`link_counts` HashMap in `AdjacencyMatrixBuilder::build`. -/
def countEdges (links : List NoteLink) (i j : Nat) : Nat :=
  links.countP (fun l => l.from_id == i && l.to_id == j)

/-- Core loop of `AdjacencyMatrixBuilder::build`: walk the link list,
rejecting the first out-of-range link, otherwise incrementing the cell
count of its `(from, to)` pair. -/
def buildGo (num_notes : Nat) :
    List NoteLink → (Nat → Nat → Nat) → Except PluginError (Nat → Nat → Nat)
  | [], counts => .ok counts
  | link :: rest, counts =>
    if num_notes ≤ link.from_id ∨ num_notes ≤ link.to_id then
      .error (.InvalidLinkIndex link.from_id link.to_id (usizePred num_notes))
    else
      buildGo num_notes rest (fun i j =>
        if i = link.from_id ∧ j = link.to_id then counts i j + 1 else counts i j)

/-- `AdjacencyMatrixBuilder::build` (`vector_plan.md`): builds the sparse
adjacency matrix, represented by its cell function, or fails on the first
link whose endpoint is out of `[0, num_notes)`. -/
def build (num_notes : Nat) (links : List NoteLink) :
    Except PluginError (Nat → Nat → Nat) :=
  buildGo num_notes links (fun _ _ => 0)

/-- `AdjacencyMatrixBuilder::matrix_to_vectors`: densify the matrix into
one vector per node, each of length `num_notes`, entry `j` of row `i`
being cell `(i, j)`. -/
def matrix_to_vectors (num_notes : Nat) (m : Nat → Nat → Nat) :
    List (List Nat) :=
  (List.range num_notes).map (fun i => (List.range num_notes).map (fun j => m i j))

/-- Adjacency matrix actually produced by a `build` call (zero matrix in
the error case, which theorems exclude by hypothesis). -/
def getBuild (num_notes : Nat) (links : List NoteLink) : Nat → Nat → Nat :=
  match build num_notes links with
  | .ok m => m
  | .error _ => fun _ _ => 0

/-- Modelled from the spec: the Rust implementation behind the
`build_laplacian_matrix` wasm export is not in the repository sources
(only its TypeScript caller in `AdjacencyMatrixProvider.fetchVectors`
is); the spec defines out-degree as the row sum of the adjacency
matrix. -/
def out_degree (num_notes : Nat) (m : Nat → Nat → Nat) (i : Nat) : Nat :=
  ∑ j ∈ Finset.range num_notes, m i j

/-- Modelled from the spec: `L = D − matrix` with `D` the diagonal of
out-degrees (`D[i][i] = sum_j matrix[i][j]`). -/
def laplacian (num_notes : Nat) (m : Nat → Nat → Nat) (i j : Nat) : Int :=
  (if i = j then (out_degree num_notes m i : Int) else 0) - (m i j : Int)

/-- Modelled: an exact integer square root by bounded search, standing in
for `f64::sqrt`; it agrees with the float square root on the
perfect-square norms the claims exercise. -/
def intSqrt (n : Nat) : Nat :=
  ((List.range (n + 1)).filter (fun k => decide (k * k ≤ n))).foldl Nat.max 0

/-- Modelled: square root on `ℚ`, the embedding of `f64::sqrt` applied to
a squared norm. -/
def ratSqrt (q : ℚ) : ℚ := (intSqrt q.num.toNat : ℚ) / (intSqrt q.den : ℚ)

/-- Squared Euclidean norm, `vec.iter().map(|x| x * x).sum::<f64>()` in
`normalize_vectors`. -/
def norm2 (v : List ℚ) : ℚ := (v.map (fun x => x * x)).sum

/-- The `1e-10` zero-norm threshold of `normalize_vectors`. -/
def zeroNormEps : ℚ := 1 / 10 ^ 10

/-- Body of the per-vector closure in `normalize_vectors`
(`vector_plan.md`, `rust/src/vector_ops.rs`): reject a vector whose norm
is below `1e-10`, otherwise divide by the norm.  The float comparison
`norm < 1e-10` is modelled by the exactly equivalent comparison of the
squared norm against the squared threshold. -/
def normalizeVec (v : List ℚ) : Except PluginError (List ℚ) :=
  if norm2 v < zeroNormEps * zeroNormEps then .error .ZeroNormVector
  else .ok (v.map (fun x => x / ratSqrt (norm2 v)))

/-- `normalize_vectors`: the source maps the per-vector closure over the
batch and collects into `Result<Vec<_>, PluginError>`, which
short-circuits at the first failing vector. -/
def normalize_vectors : List (List ℚ) → Except PluginError (List (List ℚ))
  | [] => .ok []
  | v :: rest =>
    match normalizeVec v with
    | .error e => .error e
    | .ok nv =>
      match normalize_vectors rest with
      | .error e => .error e
      | .ok nrest => .ok (nv :: nrest)

/-- Componentwise sum of a batch of vectors of dimension `d`. -/
def vecSumQ (vs : List (List ℚ)) (d : Nat) : List ℚ :=
  vs.foldl (fun acc v => List.zipWith (fun a b => a + b) acc v) (List.replicate d 0)

/-- Modelled from the spec: step 3 of `SVDReducer::reduce` — subtract the
mean vector from every row. -/
def centerData (vectors : List (List ℚ)) : List (List ℚ) :=
  vectors.map (fun v =>
    List.zipWith (fun a b => a - b) v
      ((vecSumQ vectors (vectors.headD []).length).map
        (fun s => s / (vectors.length : ℚ))))

/-- Modelled from the spec: `SVDReducer::reduce` is `todo!()` in
`vector_plan.md` and the compiled implementation is not among the
sources; steps 1–3 (the validation and centering the claims exercise)
follow spec §4.2 literally, and the numerical SVD projection of steps
4–5 is represented by a deterministic projection of the centered rows. -/
def reduce (vectors : List (List ℚ)) (target_dims : Nat) :
    Except PluginError (List (List ℚ)) :=
  if vectors.length < 1 then .error (.InsufficientData 1 vectors.length)
  else if (vectors.headD []).length < 1 then
    .error (.InsufficientData 1 (vectors.headD []).length)
  else if Nat.min vectors.length (vectors.headD []).length < target_dims then
    .error (.InvalidVectorDimensions
      (Nat.min vectors.length (vectors.headD []).length) target_dims 0)
  else .ok ((centerData vectors).map (fun row => row.take target_dims))

/-- Squared Euclidean distance between two vectors. -/
def dist2 (u v : List ℚ) : ℚ :=
  (List.zipWith (fun a b => (a - b) * (a - b)) u v).sum

/-- Modelled from the spec: nearest-centroid assignment of one vector by
squared Euclidean distance, ties broken toward the lower cluster
index. -/
def nearest (cents : List (List ℚ)) (v : List ℚ) : Nat :=
  (List.range cents.length).foldl
    (fun best c =>
      if dist2 (cents.getD c []) v < dist2 (cents.getD best []) v then c
      else best) 0

/-- Modelled from the spec: assignment step of `simple_kmeans_clustering`
— one nearest-centroid index per input vector. -/
def assignAll (cents : List (List ℚ)) (vectors : List (List ℚ)) : List Nat :=
  vectors.map (nearest cents)

/-- Accumulator step of the farthest-vector search used to re-seed an
empty cluster; keeps whichever candidate is farther from its own
centroid. -/
def victimStep (vectors cents : List (List ℚ)) (asg : List Nat)
    (best : Option Nat) (j : Nat) : Option Nat :=
  match best with
  | none => some j
  | some b =>
    if dist2 (cents.getD (asg.getD b 0) []) (vectors.getD b []) <
        dist2 (cents.getD (asg.getD j 0) []) (vectors.getD j []) then some j
    else some b

/-- Modelled from the spec: pick the vector farthest from its own
centroid among vectors whose cluster keeps at least two members, so that
re-seeding an empty cluster cannot silently empty another one (the
spec's stated guarantee that no cluster is ever dropped). -/
def pickVictim (vectors cents : List (List ℚ)) (asg : List Nat) : Option Nat :=
  ((List.range asg.length).filter
      (fun j => decide (2 ≤ asg.count (asg.getD j 0)))).foldl
    (victimStep vectors cents asg) none

/-- Modelled from the spec: re-seed cluster `c` if it is empty by
reassigning the picked vector to it. -/
def fixOne (vectors cents : List (List ℚ)) (c : Nat) (asg : List Nat) :
    List Nat :=
  if asg.count c = 0 then
    match pickVictim vectors cents asg with
    | some j => asg.set j c
    | none => asg
  else asg

/-- Modelled from the spec: re-seed every empty cluster below the given
bound, in increasing index order. -/
def fixUpTo (vectors cents : List (List ℚ)) : Nat → List Nat → List Nat
  | 0, asg => asg
  | c + 1, asg => fixOne vectors cents c (fixUpTo vectors cents c asg)

/-- Vectors currently assigned to cluster `c`. -/
def membersOf (vectors : List (List ℚ)) (asg : List Nat) (c : Nat) :
    List (List ℚ) :=
  ((List.range vectors.length).filter (fun j => asg.getD j 0 == c)).map
    (fun j => vectors.getD j [])

/-- Mean of a member list (componentwise sum divided by the count). -/
def centroidOf (d : Nat) (members : List (List ℚ)) : List ℚ :=
  (vecSumQ members d).map (fun s => s / (members.length : ℚ))

/-- Modelled from the spec: recompute each centroid as the mean of its
assigned vectors. -/
def updateCentroids (k d : Nat) (vectors : List (List ℚ)) (asg : List Nat) :
    List (List ℚ) :=
  (List.range k).map (fun c => centroidOf d (membersOf vectors asg c))

/-- Modelled from the spec: deterministic index-derived seeding — initial
centroid `c` is the input vector at index `floor(c * n / k)`. -/
def initCentroids (k : Nat) (vectors : List (List ℚ)) : List (List ℚ) :=
  (List.range k).map (fun c => vectors.getD (c * vectors.length / k) [])

/-- Modelled from the spec: the fixed iteration bound that guarantees
termination of the clustering loop. -/
def maxIterations : Nat := 100

/-- Modelled from the spec: the k-means iteration — recompute centroids
from the current assignment, reassign, re-seed empty clusters, and stop
when the assignment is unchanged or the iteration budget runs out. -/
def kmeansLoop (vectors : List (List ℚ)) (k d : Nat) :
    Nat → List Nat → List Nat
  | 0, asg => asg
  | fuel + 1, asg =>
    if fixUpTo vectors (updateCentroids k d vectors asg) k
        (assignAll (updateCentroids k d vectors asg) vectors) = asg then asg
    else kmeansLoop vectors k d fuel
      (fixUpTo vectors (updateCentroids k d vectors asg) k
        (assignAll (updateCentroids k d vectors asg) vectors))

/-- Modelled from the spec: `simple_kmeans_clustering` is `todo!()` in
`vector_plan.md` and the compiled implementation is not among the
sources; the deterministic contract of spec §4.3 is modelled — require
`1 ≤ k ≤ n` (else `InsufficientData`), seed centroids from the input
order, iterate assignment / re-seeding / centroid update to a bounded
fixpoint. -/
def simple_kmeans_clustering (vectors : List (List ℚ)) (k : Nat) :
    Except PluginError (List Nat) :=
  if k < 1 ∨ vectors.length < k then
    .error (.InsufficientData k vectors.length)
  else
    .ok (kmeansLoop vectors k (vectors.headD []).length maxIterations
      (fixUpTo vectors (initCentroids k vectors) k
        (assignAll (initCentroids k vectors) vectors)))

/-- `VectorDataManager.fetchVectors` cluster-count computation
(`src/visualization/VectorDataManager.ts`):
`Math.min(10, Math.max(3, Math.floor(vectors.length / 50)))`. -/
def clusterCount (n : Nat) : Nat := min 10 (max 3 (n / 50))

/-- The eight-entry hex palette of the `Categorical` scheme in
`src/visualization/ColorSchemes.ts`. -/
def categoricalPalette : List Nat :=
  [0xff6b6b, 0x4ecdc4, 0x45b7d1, 0xf7b731, 0x5f27cd, 0x00d2d3, 0xff9ff3, 0x54a0ff]

/-- `getColor` of the `Categorical` scheme: `palette[index % palette.length]`,
ignoring the `totalClusters` argument. -/
def categoricalColor (index _total : Nat) : Nat :=
  categoricalPalette.getD (index % categoricalPalette.length) 0

/-- A batch with no degenerate vector, for witnesses. -/
def goodBatch : List (List ℚ) := [[3, 4]]

lemma getD_map_range {α : Type} (f : Nat → α) (d : α) (i n : Nat) (h : i < n) :
    ((List.range n).map f).getD i d = f i := by
  simp [List.getD, List.getElem?_map, List.getElem?_range, h]

lemma buildGo_ok (n : Nat) (links : List NoteLink)
    (h : ∀ l ∈ links, l.from_id < n ∧ l.to_id < n) :
    ∀ counts : Nat → Nat → Nat, ∃ m,
      buildGo n links counts = .ok m ∧
      ∀ i j, m i j = counts i j + countEdges links i j := by
  induction links with
  | nil =>
    intro counts
    exact ⟨counts, rfl, by simp [countEdges]⟩
  | cons link rest ih =>
    intro counts
    have hl := h link (List.mem_cons_self link rest)
    have hrest : ∀ l ∈ rest, l.from_id < n ∧ l.to_id < n :=
      fun l hm => h l (List.mem_cons_of_mem link hm)
    obtain ⟨m, hm, hcells⟩ := ih hrest
      (fun i j => if i = link.from_id ∧ j = link.to_id then counts i j + 1 else counts i j)
    refine ⟨m, ?_, ?_⟩
    · simp only [buildGo, if_neg (by omega : ¬ (n ≤ link.from_id ∨ n ≤ link.to_id))]
      exact hm
    · intro i j
      rw [hcells i j]
      have hcons : countEdges (link :: rest) i j =
          countEdges rest i j +
            (if (link.from_id == i && link.to_id == j) = true then 1 else 0) := by
        simp [countEdges, List.countP_cons]
      rw [hcons]
      by_cases hij : i = link.from_id ∧ j = link.to_id
      · have hb : (link.from_id == i && link.to_id == j) = true := by
          simp [hij.1, hij.2]
        have hone : (if (link.from_id == i && link.to_id == j) = true
            then 1 else 0) = 1 := by simp [hb]
        rw [if_pos hij, hone]
        omega
      · have hb : ¬ (link.from_id == i && link.to_id == j) = true := by
          simp only [Bool.and_eq_true, beq_iff_eq]
          rintro ⟨h1, h2⟩
          exact hij ⟨h1.symm, h2.symm⟩
        rw [if_neg hij, if_neg hb]
        omega

lemma buildGo_error (n : Nat) (links : List NoteLink)
    (hbad : ∃ l ∈ links, n ≤ l.from_id ∨ n ≤ l.to_id) :
    ∀ counts : Nat → Nat → Nat, ∃ f t, (n ≤ f ∨ n ≤ t) ∧
      buildGo n links counts = .error (.InvalidLinkIndex f t (usizePred n)) := by
  induction links with
  | nil => simp at hbad
  | cons link rest ih =>
    intro counts
    by_cases hl : n ≤ link.from_id ∨ n ≤ link.to_id
    · exact ⟨link.from_id, link.to_id, hl, by simp [buildGo, if_pos hl]⟩
    · have hrest : ∃ l ∈ rest, n ≤ l.from_id ∨ n ≤ l.to_id := by
        rcases hbad with ⟨l, hm, hout⟩
        rcases List.mem_cons.mp hm with heq | hmem
        · exact absurd (heq ▸ hout) hl
        · exact ⟨l, hmem, hout⟩
      obtain ⟨f, t, hout, heq⟩ := ih hrest
        (fun i j => if i = link.from_id ∧ j = link.to_id then counts i j + 1 else counts i j)
      exact ⟨f, t, hout, by simp only [buildGo, if_neg hl]; exact heq⟩

/-- C1: for every node count `n` and edge list whose indices all lie in
`[0, n)`, `build` followed by `matrix_to_vectors` yields `n` vectors of
length `n` whose entry `(i, j)` is the number of links with
`from = i, to = j` — duplicates accumulate by summation and self-links
count in the diagonal cell. -/
theorem build_matrix_to_vectors_counts (n : Nat) (links : List NoteLink)
    (h : ∀ l ∈ links, l.from_id < n ∧ l.to_id < n) :
    ∃ m, build n links = .ok m ∧
      (matrix_to_vectors n m).length = n ∧
      (∀ i, i < n → ((matrix_to_vectors n m).getD i []).length = n) ∧
      (∀ i j, i < n → j < n →
        ((matrix_to_vectors n m).getD i []).getD j 0 = countEdges links i j) := by
  obtain ⟨m, hm, hcells⟩ := buildGo_ok n links h (fun _ _ => 0)
  refine ⟨m, hm, by simp [matrix_to_vectors], ?_, ?_⟩
  · intro i hi
    rw [matrix_to_vectors, getD_map_range _ _ _ _ hi]
    simp
  · intro i j hi hj
    rw [matrix_to_vectors, getD_map_range _ _ _ _ hi, getD_map_range _ _ _ _ hj]
    simpa using hcells i j

/-- Links of the worked three-node example in the spec:
(0→1), (0→2), (1→2). -/
def exLinks : List NoteLink := [⟨0, 1⟩, ⟨0, 2⟩, ⟨1, 2⟩]

theorem build_matrix_to_vectors_counts_witness :
    ((∀ l ∈ exLinks, l.from_id < 3 ∧ l.to_id < 3) ∧
      (∃ m, build 3 exLinks = .ok m ∧
        (matrix_to_vectors 3 m).length = 3 ∧
        (∀ i, i < 3 → ((matrix_to_vectors 3 m).getD i []).length = 3) ∧
        (∀ i j, i < 3 → j < 3 →
          ((matrix_to_vectors 3 m).getD i []).getD j 0 = countEdges exLinks i j))) ∧
    (build 3 exLinks).map (matrix_to_vectors 3) =
      .ok [[0, 1, 1], [0, 0, 1], [0, 0, 0]] ∧
    (build 1 [⟨0, 0⟩]).map (matrix_to_vectors 1) = .ok [[1]] :=
  ⟨⟨by decide, build_matrix_to_vectors_counts 3 exLinks (by decide)⟩,
    by decide, by decide⟩

/-- C2: an edge list containing an out-of-range endpoint makes `build`
fail with `InvalidLinkIndex` carrying the offending pair and
`max = num_notes - 1` (in the wrapping `usize` arithmetic of the source,
which for `n ≥ 1` is the ordinary `n - 1`), and no matrix is returned. -/
theorem build_invalid_link_error (n : Nat) (links : List NoteLink)
    (hbad : ∃ l ∈ links, n ≤ l.from_id ∨ n ≤ l.to_id) :
    (∃ f t, (n ≤ f ∨ n ≤ t) ∧
      build n links = .error (.InvalidLinkIndex f t (usizePred n))) ∧
    (∀ m, build n links ≠ .ok m) ∧
    (1 ≤ n → n < 2 ^ 32 → usizePred n = n - 1) := by
  obtain ⟨f, t, hout, heq⟩ := buildGo_error n links hbad (fun _ _ => 0)
  refine ⟨⟨f, t, hout, heq⟩, ?_, ?_⟩
  · intro m hok
    rw [build] at hok
    rw [hok] at heq
    exact Except.noConfusion heq
  · intro h1 h2
    unfold usizePred
    omega

theorem build_invalid_link_error_witness :
    ((∃ l ∈ [(⟨1, 3⟩ : NoteLink)], 3 ≤ l.from_id ∨ 3 ≤ l.to_id) ∧
      ((∃ f t, (3 ≤ f ∨ 3 ≤ t) ∧
        build 3 [(⟨1, 3⟩ : NoteLink)] = .error (.InvalidLinkIndex f t (usizePred 3))) ∧
      (∀ m, build 3 [(⟨1, 3⟩ : NoteLink)] ≠ .ok m) ∧
      (1 ≤ 3 → 3 < 2 ^ 32 → usizePred 3 = 3 - 1))) ∧
    build 3 [(⟨1, 3⟩ : NoteLink)] = .error (.InvalidLinkIndex 1 3 2) ∧
    build 0 [(⟨0, 0⟩ : NoteLink)] =
      .error (.InvalidLinkIndex 0 0 (2 ^ 32 - 1)) :=
  ⟨⟨by decide, build_invalid_link_error 3 [⟨1, 3⟩] (by decide)⟩,
    by rfl, by rfl⟩

lemma list_sum_range_eq {M : Type} [AddCommMonoid M] (f : Nat → M) (n : Nat) :
    ((List.range n).map f).sum = ∑ j ∈ Finset.range n, f j := by
  induction n with
  | zero => simp
  | succ k ih => rw [List.range_succ, Finset.sum_range_succ]; simp [ih]

/-- C3: for a matrix produced by a valid `build`, each row of the
spec-level Laplacian `D − A` sums to zero, and each adjacency row sums to
the node's out-degree. -/
theorem laplacian_row_sum_zero (n : Nat) (links : List NoteLink)
    (_hok : (build n links).isOk = true) (i : Nat) (hi : i < n) :
    ((List.range n).map (fun j => laplacian n (getBuild n links) i j)).sum = 0 ∧
    ((List.range n).map (fun j => ((getBuild n links) i j : Int))).sum =
      (out_degree n (getBuild n links) i : Int) := by
  have hrow : ((List.range n).map (fun j => ((getBuild n links) i j : Int))).sum =
      (out_degree n (getBuild n links) i : Int) := by
    rw [list_sum_range_eq, out_degree]
    push_cast
    rfl
  refine ⟨?_, hrow⟩
  rw [list_sum_range_eq]
  simp only [laplacian, Finset.sum_sub_distrib]
  rw [Finset.sum_ite_eq (Finset.range n) i
    (fun _ => (out_degree n (getBuild n links) i : Int))]
  rw [if_pos (Finset.mem_range.mpr hi), out_degree]
  push_cast
  ring

theorem laplacian_row_sum_zero_witness :
    ((build 3 exLinks).isOk = true ∧ 0 < 3 ∧
      (((List.range 3).map (fun j => laplacian 3 (getBuild 3 exLinks) 0 j)).sum = 0 ∧
        ((List.range 3).map (fun j => ((getBuild 3 exLinks) 0 j : Int))).sum =
          (out_degree 3 (getBuild 3 exLinks) 0 : Int))) ∧
    (List.range 3).map (fun i =>
        (List.range 3).map (fun j => laplacian 3 (getBuild 3 exLinks) i j)) =
      [[2, -1, -1], [0, 1, -1], [0, 0, 0]] :=
  ⟨⟨by decide, by decide, laplacian_row_sum_zero 3 exLinks (by decide) 0 (by decide)⟩,
    by decide⟩

/-- C5: the validation steps of `reduce` — fewer than one vector or an
empty dimension fails with `InsufficientData{required: 1, provided: n or d}`,
a target width above `min(n, d)` fails with
`InvalidVectorDimensions{expected: min(n,d), got: k}`, and in the latter
situation no output (truncated, padded or otherwise) is ever returned. -/
theorem reduce_validation_errors (vectors : List (List ℚ)) (k : Nat) :
    (vectors.length < 1 →
      reduce vectors k = .error (.InsufficientData 1 vectors.length)) ∧
    (1 ≤ vectors.length → (vectors.headD []).length < 1 →
      reduce vectors k = .error (.InsufficientData 1 (vectors.headD []).length)) ∧
    (1 ≤ vectors.length → 1 ≤ (vectors.headD []).length →
      Nat.min vectors.length (vectors.headD []).length < k →
      reduce vectors k = .error (.InvalidVectorDimensions
        (Nat.min vectors.length (vectors.headD []).length) k 0)) ∧
    (Nat.min vectors.length (vectors.headD []).length < k →
      (reduce vectors k).isOk = false) := by
  refine ⟨?_, ?_, ?_, ?_⟩
  · intro h
    rw [reduce, if_pos h]
  · intro h1 h2
    rw [reduce, if_neg (by omega), if_pos h2]
  · intro h1 h2 h3
    rw [reduce, if_neg (by omega), if_neg (by omega), if_pos h3]
  · intro h3
    by_cases h1 : vectors.length < 1
    · rw [reduce, if_pos h1]; rfl
    · by_cases h2 : (vectors.headD []).length < 1
      · rw [reduce, if_neg h1, if_pos h2]; rfl
      · rw [reduce, if_neg h1, if_neg h2, if_pos h3]; rfl

theorem reduce_validation_errors_witness :
    (1 ≤ [[(1:ℚ), 2], [3, 4]].length ∧ 1 ≤ ([[(1:ℚ), 2], [3, 4]].headD []).length ∧
      Nat.min [[(1:ℚ), 2], [3, 4]].length ([[(1:ℚ), 2], [3, 4]].headD []).length < 3) ∧
    reduce [[(1:ℚ), 2], [3, 4]] 3 = .error (.InvalidVectorDimensions
      (Nat.min [[(1:ℚ), 2], [3, 4]].length ([[(1:ℚ), 2], [3, 4]].headD []).length) 3 0) :=
  ⟨⟨by decide, by decide, by decide⟩,
    (reduce_validation_errors [[(1:ℚ), 2], [3, 4]] 3).2.2.1
      (by decide) (by decide) (by decide)⟩

lemma isOk_error {E A : Type} (e : E) : (Except.error e : Except E A).isOk = false := rfl

lemma normalizeVec_ok (v : List ℚ) (h : ¬ norm2 v < zeroNormEps * zeroNormEps) :
    normalizeVec v = .ok (v.map (fun x => x / ratSqrt (norm2 v))) := by
  rw [normalizeVec, if_neg h]

lemma normalizeVec_err (v : List ℚ) (h : norm2 v < zeroNormEps * zeroNormEps) :
    normalizeVec v = .error .ZeroNormVector := by
  rw [normalizeVec, if_pos h]

/-- C7 counterexample: a batch holding one zero vector and one good
vector fails wholesale — `normalize_vectors` returns a batch-level
`ZeroNormVector` error and no per-item results, so a caller cannot skip
just the offending vector through this function. -/
theorem normalize_per_item_counterexample :
    normalize_vectors [[(0:ℚ), 0], [3, 4]] = .error .ZeroNormVector ∧
    (normalize_vectors [[(0:ℚ), 0], [3, 4]]).isOk = false := by
  have h : norm2 [(0:ℚ), 0] < zeroNormEps * zeroNormEps := by
    norm_num [norm2, zeroNormEps]
  have he := normalizeVec_err _ h
  constructor <;> simp [normalize_vectors, he, isOk_error]

/-- C7 (amended): `normalize_vectors` divides every vector of an
all-good batch by its Euclidean norm, and a batch containing any vector
of norm below the `1e-10` threshold makes the whole call fail with
`ZeroNormVector` (first offending vector aborts the batch; no output is
returned); it never silently returns a zero or NaN vector. -/
theorem normalize_vectors_batch_error (vectors : List (List ℚ)) :
    ((∀ v ∈ vectors, ¬ norm2 v < zeroNormEps * zeroNormEps) →
      normalize_vectors vectors =
        .ok (vectors.map (fun v => v.map (fun x => x / ratSqrt (norm2 v))))) ∧
    ((∃ v ∈ vectors, norm2 v < zeroNormEps * zeroNormEps) →
      normalize_vectors vectors = .error .ZeroNormVector ∧
      (normalize_vectors vectors).isOk = false) := by
  induction vectors with
  | nil =>
    refine ⟨fun _ => rfl, ?_⟩
    rintro ⟨v, hv, _⟩
    exact absurd hv (List.not_mem_nil v)
  | cons v rest ih =>
    constructor
    · intro hall
      have hv := hall v (List.mem_cons_self v rest)
      have hrest := ih.1 (fun u hu => hall u (List.mem_cons_of_mem v hu))
      simp [normalize_vectors, normalizeVec_ok v hv, hrest]
    · rintro ⟨u, hu, hbad⟩
      rcases List.mem_cons.mp hu with rfl | humem
      · have he := normalizeVec_err u hbad
        constructor <;> simp [normalize_vectors, he, isOk_error]
      · by_cases hv : norm2 v < zeroNormEps * zeroNormEps
        · have he := normalizeVec_err v hv
          constructor <;> simp [normalize_vectors, he, isOk_error]
        · have hrest := (ih.2 ⟨u, humem, hbad⟩).1
          have hok := normalizeVec_ok v hv
          constructor <;> simp [normalize_vectors, hok, hrest, isOk_error]

theorem normalize_vectors_batch_error_witness :
    ((∀ v ∈ goodBatch, ¬ norm2 v < zeroNormEps * zeroNormEps) ∧
      normalize_vectors goodBatch =
        .ok (goodBatch.map (fun v => v.map (fun x => x / ratSqrt (norm2 v))))) ∧
    goodBatch.map (fun v => v.map (fun x => x / ratSqrt (norm2 v))) =
      [[3 / 5, 4 / 5]] := by
  have hnorm : ∀ v ∈ goodBatch, ¬ norm2 v < zeroNormEps * zeroNormEps := by
    intro v hv
    simp only [goodBatch, List.mem_singleton] at hv
    subst hv
    simp [norm2, zeroNormEps]
    norm_num
  refine ⟨⟨hnorm, (normalize_vectors_batch_error goodBatch).1 hnorm⟩, ?_⟩
  have h1 : norm2 [(3:ℚ), 4] = 25 := by
    simp [norm2]
    norm_num
  have i1 : intSqrt 25 = 5 := by decide
  have i2 : intSqrt 1 = 1 := by decide
  have i3 : Int.toNat (25 : ℤ) = 25 := rfl
  have h2 : ratSqrt 25 = 5 := by
    rw [ratSqrt]
    norm_num [i3, i1, i2]
  simp [goodBatch, h1, h2]

/-- C4: the modelled decomposition and clustering contain no source of
randomness — two calls on identical input give identical (bit-for-bit
equal) results. -/
theorem reduce_kmeans_deterministic (v w : List (List ℚ)) (k : Nat)
    (h : v = w) :
    reduce v k = reduce w k ∧
    simple_kmeans_clustering v k = simple_kmeans_clustering w k := by
  subst h
  exact ⟨rfl, rfl⟩

theorem reduce_kmeans_deterministic_witness :
    reduce goodBatch 1 = reduce goodBatch 1 ∧
    simple_kmeans_clustering goodBatch 1 = simple_kmeans_clustering goodBatch 1 :=
  reduce_kmeans_deterministic goodBatch goodBatch 1 rfl

/-- C9: the cluster count requested by `VectorDataManager.fetchVectors`
for `n ≥ 1` vectors is exactly `min(10, max(3, floor(n/50)))`, always
lies in `[3, 10]`, and exceeds `n` whenever `n < 3`. -/
theorem clusterCount_bounds (n : Nat) (h : 1 ≤ n) :
    clusterCount n = min 10 (max 3 (n / 50)) ∧
    3 ≤ clusterCount n ∧ clusterCount n ≤ 10 ∧
    (n < 3 → n < clusterCount n) := by
  refine ⟨rfl, ?_, ?_, ?_⟩ <;> unfold clusterCount <;> omega

theorem clusterCount_bounds_witness :
    clusterCount 2 = min 10 (max 3 (2 / 50)) ∧
    3 ≤ clusterCount 2 ∧ clusterCount 2 ≤ 10 ∧
    (2 < 3 → 2 < clusterCount 2) :=
  clusterCount_bounds 2 (by decide)

/-- C10: the `Categorical` scheme is periodic in the cluster index with
period 8 and ignores the total-cluster argument, so any run with more
than 8 clusters reuses a color for two distinct cluster indices. -/
theorem categorical_period_eight (i t t2 : Nat) :
    categoricalColor i t = categoricalColor (i + 8) t2 ∧
    (8 < t → ∃ a b, a < t ∧ b < t ∧ a ≠ b ∧
      categoricalColor a t = categoricalColor b t) := by
  constructor
  · simp [categoricalColor, categoricalPalette]
  · intro ht
    exact ⟨0, 8, by omega, ht, by decide,
      by simp [categoricalColor, categoricalPalette]⟩

theorem categorical_period_eight_witness :
    categoricalColor 0 9 = categoricalColor (0 + 8) 5 ∧
    (∃ a b, a < 9 ∧ b < 9 ∧ a ≠ b ∧
      categoricalColor a 9 = categoricalColor b 9) :=
  ⟨(categorical_period_eight 0 9 5).1,
    (categorical_period_eight 0 9 5).2 (by decide)⟩

lemma getD_eq_getElem {α : Type} (l : List α) (d : α) (j : Nat)
    (h : j < l.length) : l.getD j d = l[j] := by
  simp [List.getD, List.getElem?_eq_getElem h]

lemma nearest_lt (cents : List (List ℚ)) (v : List ℚ) (h : 0 < cents.length) :
    nearest cents v < cents.length := by
  have key : ∀ (l : List Nat) (b : Nat), b < cents.length →
      (∀ c ∈ l, c < cents.length) →
      l.foldl (fun best c =>
        if dist2 (cents.getD c []) v < dist2 (cents.getD best []) v then c
        else best) b < cents.length := by
    intro l
    induction l with
    | nil =>
      intro b hb _
      simpa using hb
    | cons c t ih =>
      intro b hb hall
      simp only [List.foldl_cons]
      apply ih
      · by_cases hc : dist2 (cents.getD c []) v < dist2 (cents.getD b []) v
        · rw [if_pos hc]; exact hall c (List.mem_cons_self c t)
        · rw [if_neg hc]; exact hb
      · intro x hx
        exact hall x (List.mem_cons_of_mem c hx)
  rw [nearest]
  exact key (List.range cents.length) 0 h (fun c hc => List.mem_range.mp hc)

lemma victimStep_isSome (vectors cents : List (List ℚ)) (asg : List Nat)
    (acc : Option Nat) (j : Nat) :
    (victimStep vectors cents asg acc j).isSome = true := by
  cases acc with
  | none => rfl
  | some b =>
    simp only [victimStep]
    split <;> rfl

lemma foldl_victimStep_some (vectors cents : List (List ℚ)) (asg : List Nat) :
    ∀ (l : List Nat) (acc : Option Nat) (j : Nat),
      l.foldl (victimStep vectors cents asg) acc = some j →
      j ∈ l ∨ acc = some j := by
  intro l
  induction l with
  | nil =>
    intro acc j h
    exact Or.inr h
  | cons x t ih =>
    intro acc j h
    simp only [List.foldl_cons] at h
    rcases ih (victimStep vectors cents asg acc x) j h with hmem | hacc
    · exact Or.inl (List.mem_cons_of_mem x hmem)
    · cases acc with
      | none =>
        simp only [victimStep] at hacc
        cases Option.some_inj.mp hacc
        exact Or.inl (List.mem_cons_self x t)
      | some b =>
        simp only [victimStep] at hacc
        by_cases hlt : dist2 (cents.getD (asg.getD b 0) []) (vectors.getD b []) <
            dist2 (cents.getD (asg.getD x 0) []) (vectors.getD x [])
        · rw [if_pos hlt] at hacc
          cases Option.some_inj.mp hacc
          exact Or.inl (List.mem_cons_self x t)
        · rw [if_neg hlt] at hacc
          exact Or.inr hacc

lemma foldl_victimStep_isSome (vectors cents : List (List ℚ)) (asg : List Nat) :
    ∀ (l : List Nat) (acc : Option Nat), acc.isSome = true ∨ l ≠ [] →
      (l.foldl (victimStep vectors cents asg) acc).isSome = true := by
  intro l
  induction l with
  | nil =>
    intro acc h
    rcases h with h | h
    · exact h
    · exact absurd rfl h
  | cons x t ih =>
    intro acc _
    simp only [List.foldl_cons]
    exact ih _ (Or.inl (victimStep_isSome vectors cents asg acc x))

lemma pickVictim_some (vectors cents : List (List ℚ)) (asg : List Nat)
    (j : Nat) (h : pickVictim vectors cents asg = some j) :
    j < asg.length ∧ 2 ≤ asg.count (asg.getD j 0) := by
  rw [pickVictim] at h
  rcases foldl_victimStep_some vectors cents asg _ none j h with hmem | hacc
  · rw [List.mem_filter] at hmem
    obtain ⟨hr, hp⟩ := hmem
    exact ⟨List.mem_range.mp hr, of_decide_eq_true hp⟩
  · exact Option.noConfusion hacc

lemma pickVictim_isSome (vectors cents : List (List ℚ)) (asg : List Nat)
    (hne : (List.range asg.length).filter
      (fun j => decide (2 ≤ asg.count (asg.getD j 0))) ≠ []) :
    (pickVictim vectors cents asg).isSome = true := by
  rw [pickVictim]
  exact foldl_victimStep_isSome vectors cents asg _ none (Or.inr hne)

lemma sum_count_eq_length (a : List Nat) (k : Nat) (h : ∀ x ∈ a, x < k) :
    ∑ x ∈ Finset.range k, a.count x = a.length := by
  induction a with
  | nil => simp
  | cons y t ih =>
    have hy : y ∈ Finset.range k :=
      Finset.mem_range.mpr (h y (List.mem_cons_self y t))
    have ht := ih (fun x hx => h x (List.mem_cons_of_mem y hx))
    have hterm : ∀ x, (y :: t).count x =
        t.count x + (if x = y then 1 else 0) := by
      intro x
      rw [List.count_cons]
      by_cases hxy : x = y
      · simp [hxy]
      · simp [hxy, Ne.symm hxy]
    calc ∑ x ∈ Finset.range k, (y :: t).count x
        = ∑ x ∈ Finset.range k, (t.count x + (if x = y then 1 else 0)) :=
          Finset.sum_congr rfl (fun x _ => hterm x)
      _ = (∑ x ∈ Finset.range k, t.count x) +
          ∑ x ∈ Finset.range k, (if x = y then 1 else 0) :=
          Finset.sum_add_distrib
      _ = t.length + 1 := by
          rw [ht, Finset.sum_ite_eq' (Finset.range k) y (fun _ => 1), if_pos hy]
      _ = (y :: t).length := by simp

lemma exists_two_cluster (a : List Nat) (k c : Nat) (hlen : k ≤ a.length)
    (hval : ∀ x ∈ a, x < k) (hc : c < k) (hcc : a.count c = 0) :
    ∃ x, 2 ≤ a.count x := by
  by_contra hno
  push_neg at hno
  have hsum := sum_count_eq_length a k hval
  have hle : ∑ x ∈ Finset.range k, a.count x ≤
      ∑ x ∈ Finset.range k, (if x = c then 0 else 1) := by
    apply Finset.sum_le_sum
    intro x _
    by_cases hx : x = c
    · simp [hx, hcc]
    · have := hno x
      simp only [if_neg hx]
      omega
  have hsplit : (∑ x ∈ Finset.range k, (if x = c then (0:ℕ) else 1)) +
      ∑ x ∈ Finset.range k, (if x = c then (1:ℕ) else 0) = k := by
    rw [← Finset.sum_add_distrib]
    have : ∀ x ∈ Finset.range k,
        ((if x = c then (0:ℕ) else 1) + if x = c then (1:ℕ) else 0) = 1 := by
      intro x _
      by_cases hx : x = c <;> simp [hx]
    rw [Finset.sum_congr rfl this]
    simp
  have hone : ∑ x ∈ Finset.range k, (if x = c then (1:ℕ) else 0) = 1 := by
    rw [Finset.sum_ite_eq' (Finset.range k) c (fun _ => 1),
      if_pos (Finset.mem_range.mpr hc)]
  omega

lemma exists_index_of_two (a : List Nat) (x : Nat) (h2 : 2 ≤ a.count x) :
    ∃ j, j < a.length ∧ a.getD j 0 = x := by
  have hmem : x ∈ a := List.count_pos_iff.mp (by omega)
  obtain ⟨j, hj, hEq⟩ := List.getElem_of_mem hmem
  exact ⟨j, hj, by rw [getD_eq_getElem a 0 j hj]; exact hEq⟩

lemma fixOne_inv (vectors cents : List (List ℚ)) (k c : Nat) (asg : List Nat)
    (hlen : k ≤ asg.length) (hc : c < k) (hval : ∀ x ∈ asg, x < k) :
    (fixOne vectors cents c asg).length = asg.length ∧
    (∀ x ∈ fixOne vectors cents c asg, x < k) ∧
    1 ≤ (fixOne vectors cents c asg).count c ∧
    (∀ c2, 1 ≤ asg.count c2 → 1 ≤ (fixOne vectors cents c asg).count c2) := by
  rw [fixOne]
  by_cases h0 : asg.count c = 0
  · rw [if_pos h0]
    obtain ⟨x, hx⟩ := exists_two_cluster asg k c hlen hval hc h0
    obtain ⟨j0, hj0, hjx⟩ := exists_index_of_two asg x hx
    have hfil : j0 ∈ (List.range asg.length).filter
        (fun j => decide (2 ≤ asg.count (asg.getD j 0))) := by
      rw [List.mem_filter]
      exact ⟨List.mem_range.mpr hj0, decide_eq_true (by rw [hjx]; exact hx)⟩
    obtain ⟨j, hj⟩ := Option.isSome_iff_exists.mp
      (pickVictim_isSome vectors cents asg (List.ne_nil_of_mem hfil))
    rw [hj]
    obtain ⟨hjlen, hjcount⟩ := pickVictim_some vectors cents asg j hj
    have hgetD : asg.getD j 0 = asg[j] := getD_eq_getElem asg 0 j hjlen
    rw [hgetD] at hjcount
    have hjc : asg[j] ≠ c := by
      intro hEq
      have : 0 < asg.count c := by
        rw [← hEq]
        omega
      omega
    refine ⟨List.length_set asg j c, ?_, ?_, ?_⟩
    · intro y hy
      rcases List.mem_or_eq_of_mem_set hy with hmem | rfl
      · exact hval y hmem
      · exact hc
    · rw [List.count_set c c asg j hjlen]
      simp
    · intro c2 hc2
      rw [List.count_set c c2 asg j hjlen]
      by_cases he : asg[j] = c2
      · have : 2 ≤ asg.count c2 := he ▸ hjcount
        simp [he]
        omega
      · have hne : ¬ (asg[j] == c2) = true := by
          simp [he]
        rw [if_neg hne]
        omega
  · rw [if_neg h0]
    exact ⟨rfl, hval, by omega, fun c2 h => h⟩

lemma fixUpTo_inv (vectors cents : List (List ℚ)) (k : Nat) :
    ∀ (c : Nat), c ≤ k → ∀ (asg : List Nat), k ≤ asg.length →
      (∀ x ∈ asg, x < k) →
      (fixUpTo vectors cents c asg).length = asg.length ∧
      (∀ x ∈ fixUpTo vectors cents c asg, x < k) ∧
      (∀ c2, c2 < c → 1 ≤ (fixUpTo vectors cents c asg).count c2) := by
  intro c
  induction c with
  | zero =>
    intro _ asg _ h2
    exact ⟨rfl, h2, fun c2 hc2 => absurd hc2 (Nat.not_lt_zero c2)⟩
  | succ c ih =>
    intro hck asg hlen hval
    obtain ⟨ihlen, ihval, ihcount⟩ := ih (by omega) asg hlen hval
    have hlen2 : k ≤ (fixUpTo vectors cents c asg).length := by
      rw [ihlen]; exact hlen
    obtain ⟨flen, fval, fc, fpres⟩ :=
      fixOne_inv vectors cents k c (fixUpTo vectors cents c asg) hlen2
        (by omega) ihval
    refine ⟨?_, ?_, ?_⟩
    · simp only [fixUpTo]
      rw [flen, ihlen]
    · simp only [fixUpTo]
      exact fval
    · intro c2 hc2
      simp only [fixUpTo]
      by_cases he : c2 = c
      · exact he ▸ fc
      · exact fpres c2 (ihcount c2 (by omega))

lemma round_assignment_inv (vectors : List (List ℚ)) (k : Nat)
    (cents : List (List ℚ)) (hc : cents.length = k) (hk : 1 ≤ k)
    (hkn : k ≤ vectors.length) :
    (fixUpTo vectors cents k (assignAll cents vectors)).length =
      vectors.length ∧
    (∀ x ∈ fixUpTo vectors cents k (assignAll cents vectors), x < k) ∧
    (∀ c2, c2 < k →
      1 ≤ (fixUpTo vectors cents k (assignAll cents vectors)).count c2) := by
  have h0 : (assignAll cents vectors).length = vectors.length := by
    simp [assignAll]
  have h1 : ∀ x ∈ assignAll cents vectors, x < k := by
    intro x hx
    simp only [assignAll, List.mem_map] at hx
    obtain ⟨v, _, rfl⟩ := hx
    rw [← hc]
    exact nearest_lt cents v (by omega)
  obtain ⟨a, b, c⟩ := fixUpTo_inv vectors cents k k (le_refl k)
    (assignAll cents vectors) (by rw [h0]; exact hkn) h1
  exact ⟨by rw [a, h0], b, c⟩

lemma kmeansLoop_inv (vectors : List (List ℚ)) (k d : Nat) (hk : 1 ≤ k)
    (hkn : k ≤ vectors.length) :
    ∀ (fuel : Nat) (asg : List Nat),
      asg.length = vectors.length → (∀ x ∈ asg, x < k) →
      (∀ c2, c2 < k → 1 ≤ asg.count c2) →
      (kmeansLoop vectors k d fuel asg).length = vectors.length ∧
      (∀ x ∈ kmeansLoop vectors k d fuel asg, x < k) ∧
      (∀ c2, c2 < k → 1 ≤ (kmeansLoop vectors k d fuel asg).count c2) := by
  intro fuel
  induction fuel with
  | zero =>
    intro asg h1 h2 h3
    exact ⟨h1, h2, h3⟩
  | succ fuel ih =>
    intro asg h1 h2 h3
    simp only [kmeansLoop]
    by_cases heq : fixUpTo vectors (updateCentroids k d vectors asg) k
        (assignAll (updateCentroids k d vectors asg) vectors) = asg
    · rw [if_pos heq]
      exact ⟨h1, h2, h3⟩
    · rw [if_neg heq]
      have hcl : (updateCentroids k d vectors asg).length = k := by
        simp [updateCentroids]
      have hr := round_assignment_inv vectors k
        (updateCentroids k d vectors asg) hcl hk hkn
      exact ih _ hr.1 hr.2.1 hr.2.2

/-- C8: for `1 ≤ k ≤ n`, the modelled `simple_kmeans_clustering` returns
exactly one cluster index per input vector, every index lies in `[0, k)`
and no cluster is empty in the final assignment; for `k > n` or `k < 1`
it fails with `InsufficientData`. -/
theorem kmeans_contract (vectors : List (List ℚ)) (k : Nat) :
    (1 ≤ k → k ≤ vectors.length →
      ∃ asg, simple_kmeans_clustering vectors k = .ok asg ∧
        asg.length = vectors.length ∧ (∀ c ∈ asg, c < k) ∧
        (∀ c, c < k → c ∈ asg)) ∧
    ((vectors.length < k ∨ k < 1) →
      simple_kmeans_clustering vectors k =
        .error (.InsufficientData k vectors.length)) := by
  constructor
  · intro hk hkn
    have hcl : (initCentroids k vectors).length = k := by
      simp [initCentroids]
    have hr := round_assignment_inv vectors k (initCentroids k vectors)
      hcl hk hkn
    have hl := kmeansLoop_inv vectors k (vectors.headD []).length hk hkn
      maxIterations _ hr.1 hr.2.1 hr.2.2
    refine ⟨kmeansLoop vectors k (vectors.headD []).length maxIterations
      (fixUpTo vectors (initCentroids k vectors) k
        (assignAll (initCentroids k vectors) vectors)), ?_, hl.1, hl.2.1, ?_⟩
    · rw [simple_kmeans_clustering, if_neg (by omega)]
    · intro c hc
      exact List.count_pos_iff.mp (by have := hl.2.2 c hc; omega)
  · intro h
    rw [simple_kmeans_clustering, if_pos (by omega)]

theorem kmeans_contract_witness :
    (∃ asg, simple_kmeans_clustering [[(0:ℚ)], [1], [2]] 2 = .ok asg ∧
      asg.length = [[(0:ℚ)], [1], [2]].length ∧ (∀ c ∈ asg, c < 2) ∧
      (∀ c, c < 2 → c ∈ asg)) ∧
    simple_kmeans_clustering [[(0:ℚ)], [1]] 5 =
      .error (.InsufficientData 5 [[(0:ℚ)], [1]].length) :=
  ⟨(kmeans_contract [[(0:ℚ)], [1], [2]] 2).1 (by decide) (by decide),
    (kmeans_contract [[(0:ℚ)], [1]] 5).2 (Or.inl (by decide))⟩
